import Mathlib

/-!
Verification of the layout and navigation core of the `diargos` terminal
tabular viewer, shallowly embedded from the Rust sources:

* `src/util.rs` — the Unicode-display-width-aware text fitter
  (`Util::trim_display_str_elided`) and the multi-value renderer
  (`Interpolator`, `MultiFigments`);
* `src/cursor.rs` — the two-mode cursor (`Cursor::shift`, `Cursor::clamp`);
* `src/data.rs` — records, columns and the stable column sort
  (`Data::sort_by_column_index`);
* `src/model.rs` — the width cache (`Model::recache`,
  `Model::sort_by_column`).

Strings manipulated by the text fitter are modelled as lists of
display-characters, each carrying the display width that the
`unicode-width` crate assigns to its code point (wide code points count 2,
zero-width marks 0, everything else 1).  The fitter and renderer never
inspect a character beyond its width, so this embedding is faithful;
byte-offset slicing in the source always happens at character boundaries
and becomes `List.take`/`List.drop`.  `usize` arithmetic is modelled on
`Nat`: `saturating_sub` is truncated subtraction, `checked_sub` is guarded
subtraction, and `saturating_add` saturates at `2 ^ 64 - 1`.
-/

namespace Diargos

/-- A display character: a code point together with the display width the
`unicode-width` crate assigns to it. -/
structure UChar where
  char : Char
  width : Nat
deriving DecidableEq, Repr

/-- Display width of a string, as `unicode_width::UnicodeWidthStr::width`:
the sum of the per-character widths. -/
def widthOf (s : List UChar) : Nat :=
  (s.map UChar.width).sum

/-- `TrimStatus` from `src/util.rs`. -/
inductive TrimStatus where
  | untrimmed
  | trimmed (padding : Nat) (emitEllipsis : Bool)
deriving DecidableEq, Repr

/-- `TrimStatus::is_trimmed`. -/
def TrimStatus.isTrimmed : TrimStatus → Bool
  | .untrimmed => false
  | .trimmed _ _ => true

/-- `TrimStatus::padding`. -/
def TrimStatus.padding : TrimStatus → Nat
  | .untrimmed => 0
  | .trimmed p _ => p

/-- `TrimStatus::emit_ellipsis`. -/
def TrimStatus.emitEllipsis : TrimStatus → Bool
  | .untrimmed => false
  | .trimmed _ e => e

/-- `TrimOutput` from `src/util.rs`. -/
structure TrimOutput where
  displayStr : List UChar
  outputWidth : Nat
  fullRealWidth : Nat
  trimStatus : TrimStatus
deriving DecidableEq, Repr

/-- `TrimOutput::ellipsis_offset`. -/
def TrimOutput.ellipsisOffset (t : TrimOutput) : Nat :=
  t.outputWidth + t.trimStatus.padding

/-- The `for (i, ch) in original_str.char_indices()` loop of
`Util::trim_display_str_elided`, with the loop state passed explicitly:
the scanned-off remainder of `orig`, the count `k` of characters already
consumed (the source's byte index `i`, at character granularity), and
`currWidth`, `pastElisionPoint`, `elidedI`, `outputWidth`, `padding` — the
mutable locals of the source.  The source updates the elision state first
and then checks the stop condition; here the two checks are laid out as
nested branches with the corresponding state values inlined. -/
def trimLoop (orig : List UChar) (targetWidth elidedWidth : Nat)
    (printEllipsis : Bool) :
    List UChar → Nat → Nat → Bool → Nat → Nat → Nat → TrimOutput
  | [], _, currWidth, _, _, _, _ =>
    { displayStr := orig
      outputWidth := currWidth
      fullRealWidth := currWidth
      trimStatus := .untrimmed }
  | ch :: rest, k, currWidth, pastElisionPoint, elidedI, outputWidth, padding =>
    -- the character's width is accumulated; if the elided width is newly
    -- exceeded, the elision point is recorded at this character
    if !pastElisionPoint && decide (elidedWidth < currWidth + ch.width) then
      if targetWidth < currWidth + ch.width then
        { displayStr := orig.take k
          outputWidth := currWidth
          fullRealWidth := widthOf (orig.drop k) + currWidth
          trimStatus := .trimmed (elidedWidth - currWidth) printEllipsis }
      else
        trimLoop orig targetWidth elidedWidth printEllipsis rest (k + 1)
          (currWidth + ch.width) true k currWidth (elidedWidth - currWidth)
    else
      if targetWidth < currWidth + ch.width then
        { displayStr := orig.take elidedI
          outputWidth := outputWidth
          fullRealWidth := widthOf (orig.drop elidedI) + outputWidth
          trimStatus := .trimmed padding printEllipsis }
      else
        trimLoop orig targetWidth elidedWidth printEllipsis rest (k + 1)
          (currWidth + ch.width) pastElisionPoint elidedI outputWidth padding

/-- `Util::trim_display_str_elided` from `src/util.rs`.  An ellipsis wider
than the target width is treated as width 0 (disabled); the elided width is
the saturating difference `target_width - ellipsis_width`. -/
def trimDisplayStrElided (originalStr : List UChar)
    (targetWidth ellipsisWidth : Nat) : TrimOutput :=
  let effEllipsisWidth := if targetWidth < ellipsisWidth then 0 else ellipsisWidth
  let elidedWidth := targetWidth - effEllipsisWidth
  trimLoop originalStr targetWidth elidedWidth (effEllipsisWidth != 0)
    originalStr 0 0 false 0 0 0

/-- `Util::trim_display_str`: the non-elided trim. -/
def trimDisplayStr (originalStr : List UChar) (targetWidth : Nat) : TrimOutput :=
  trimDisplayStrElided originalStr targetWidth 0

/-- A narrow test character (width 1). -/
def nch (c : Char) : UChar := ⟨c, 1⟩

/-- A wide test character (width 2). -/
def wch (c : Char) : UChar := ⟨c, 2⟩

/-- The string `"hello!"` of the source's unit tests. -/
def helloStr : List UChar :=
  [nch 'h', nch 'e', nch 'l', nch 'l', nch 'o', nch '!']

/-- The string `"日本人の氏名"` of the source's unit tests: six wide
characters. -/
def nihonStr : List UChar :=
  [wch '日', wch '本', wch '人', wch 'の', wch '氏', wch '名']

/-- The bundle of invariants delivered by the scanning loop of
`Util::trim_display_str_elided`: `output_width` is the display width of the
returned display string, that width is at most the target width,
`full_real_width` is the width of the whole input, the padding of a trimmed
result is smaller than the width of some character of the input, and an
`Untrimmed` result returns the input itself. -/
def TrimInv (orig : List UChar) (tw : Nat) (r : TrimOutput) : Prop :=
  r.outputWidth = widthOf r.displayStr ∧
  widthOf r.displayStr ≤ tw ∧
  r.fullRealWidth = widthOf orig ∧
  (∀ p b, r.trimStatus = .trimmed p b → ∃ c ∈ orig, p < c.width) ∧
  (r.trimStatus = .untrimmed → r.displayStr = orig)

/-- `CursorDir` from `src/cursor.rs`. -/
inductive CursorDir where
  | u | d | l | r
deriving DecidableEq, Repr

/-- `Cursor` from `src/cursor.rs`. -/
inductive Cursor where
  | cell (x y : Nat)
  | column (x : Nat)
deriving DecidableEq, Repr

/-- `usize::saturating_add`, on the `Nat` model of `usize`. -/
def satAdd (a b : Nat) : Nat := min (a + b) (2 ^ 64 - 1)

/-- `Cursor::clamp` from `src/cursor.rs`: each axis becomes
`min (bound.saturating_sub 1)` of itself. -/
def Cursor.clamp : Cursor → Nat → Nat → Cursor
  | .cell x y, boundX, boundY => .cell (min (boundX - 1) x) (min (boundY - 1) y)
  | .column x, boundX, _ => .column (min (boundX - 1) x)

/-- `Cursor::shift` from `src/cursor.rs`: move (skipped when `n = 0`), then
always clamp.  `checked_sub` succeeds exactly when `n ≤ y`, `saturating_sub`
is `Nat` subtraction. -/
def Cursor.shift (c : Cursor) (dir : CursorDir) (n boundX boundY : Nat) :
    Cursor :=
  let moved :=
    if 0 < n then
      match dir, c with
      | .u, .cell x y => if n ≤ y then Cursor.cell x (y - n) else Cursor.column x
      | .u, .column x => Cursor.column x
      | .d, .cell x y => Cursor.cell x (satAdd y n)
      | .d, .column x => Cursor.cell x (n - 1)
      | .l, .cell x y => Cursor.cell (x - n) y
      | .l, .column x => Cursor.column (x - n)
      | .r, .cell x y => Cursor.cell (satAdd x n) y
      | .r, .column x => Cursor.column (satAdd x n)
    else c
  moved.clamp boundX boundY

/-- The transition table of the claim, stated in the spec's own words: Up on
a cell gives `Cell(x, y-n)` when `n ≤ y` and `Column(x)` when `n > y`; Up on
a column moves nothing; Down on a column gives `Cell(x, n-1)`; Down on a
cell adds `n` to the row saturating; Left/Right saturatingly subtract/add
`n` to the column in both modes. -/
def Cursor.shiftTableSpec : Cursor → CursorDir → Nat → Cursor
  | .cell x y, .u, n => if n ≤ y then .cell x (y - n) else .column x
  | .column x, .u, _ => .column x
  | .cell x y, .d, n => .cell x (satAdd y n)
  | .column x, .d, n => .cell x (n - 1)
  | .cell x y, .l, n => .cell (x - n) y
  | .column x, .l, n => .column (x - n)
  | .cell x y, .r, n => .cell (satAdd x n) y
  | .column x, .r, n => .column (satAdd x n)

/-- Clamping of one coordinate in the spec's words: clamp to `[0, bound-1]`,
to 0 when the bound is 0. -/
def clampCoordSpec (bound v : Nat) : Nat :=
  if bound = 0 then 0 else min v (bound - 1)

/-- Clamping of both axes, in the spec's words. -/
def Cursor.clampSpec : Cursor → Nat → Nat → Cursor
  | .cell x y, boundX, boundY =>
    .cell (clampCoordSpec boundX x) (clampCoordSpec boundY y)
  | .column x, boundX, _ => .column (clampCoordSpec boundX x)

/-- A string of narrow (width-1) characters such as the ASCII test
vectors. -/
def ascii (s : String) : List UChar := s.data.map nch

/-- `Interpolator` from `src/util.rs`: alternates between yielding strings
from a slice and a separator string. -/
structure Interpolator where
  values : List (List UChar)
  separator : List UChar
  index : Nat
  emitSep : Bool
deriving DecidableEq, Repr

/-- `Interpolator::new`. -/
def Interpolator.new (values : List (List UChar)) (separator : List UChar) :
    Interpolator :=
  { values := values, separator := separator, index := 0, emitSep := false }

/-- `Interpolator::next` (`impl Iterator`), returning the yielded string and
the advanced iterator.  A separator is only emitted if another value
follows it; `emit_sep` is toggled on every successful step. -/
def Interpolator.next (ip : Interpolator) : Option (List UChar × Interpolator) :=
  if ip.emitSep then
    match ip.values[ip.index]? with
    | none => none
    | some _ => some (ip.separator, { ip with emitSep := false })
  else
    match ip.values[ip.index]? with
    | none => none
    | some s => some (s, { ip with index := ip.index + 1, emitSep := true })

/-- The list of strings an `Interpolator` state will still yield, by the
remaining values and the `emit_sep` flag. -/
def itemsGo (separator : List UChar) :
    List (List UChar) → Bool → List (List UChar)
  | [], _ => []
  | v :: rest, false => v :: itemsGo separator rest true
  | v :: rest, true => separator :: v :: itemsGo separator rest true

/-- The list of strings an `Interpolator` will still yield. -/
def Interpolator.items (ip : Interpolator) : List (List UChar) :=
  itemsGo ip.separator (ip.values.drop ip.index) ip.emitSep

/-- `State` from `src/util.rs` (the multi-figment emission state
machine). -/
inductive MFState where
  | head (figmentIter : Interpolator) (targetWidth uncontestedWidth : Nat)
  | tail (figmentIter : Interpolator)
  | ellipsisState (padding : Nat)
  | done
deriving DecidableEq, Repr

/-- `MultiFigments` from `src/util.rs`. -/
structure MultiFigments where
  offset : Nat
  ellipsis : List UChar
  ellipsisWidth : Nat
  state : MFState
deriving DecidableEq, Repr

/-- `MultiFigments::new`: an ellipsis wider than the target width is
disabled (width 0), and the uncontested width is the saturating difference
`target_width - ellipsis_width`. -/
def MultiFigments.new (values : List (List UChar)) (targetWidth : Nat)
    (separator ellipsis : List UChar) : MultiFigments :=
  let ellipsisWidth := if widthOf ellipsis ≤ targetWidth then widthOf ellipsis else 0
  let uncontestedWidth := targetWidth - ellipsisWidth
  { offset := 0
    ellipsis := ellipsis
    ellipsisWidth := ellipsisWidth
    state := .head (Interpolator.new values separator) targetWidth uncontestedWidth }

/-- Result of one call to `MultiFigments::next`: yield a figment at an
offset, stop (iterator exhausted), or hit the `unreachable!()` branch. -/
inductive MFStep where
  | yield (offset : Nat) (figment : List UChar) (next : MultiFigments)
  | stop
  | panicked
deriving DecidableEq, Repr

/-- The forward-sum check of the `frontier_iter` loop in
`MultiFigments::next`: accumulate widths onto the running offset and report
whether the target width is ever strictly exceeded. -/
def frontierExceeds (targetWidth : Nat) : Nat → List Nat → Bool
  | _, [] => false
  | off, w :: ws =>
    if targetWidth < off + w then true else frontierExceeds targetWidth (off + w) ws

/-- `MultiFigments::next` (`impl Iterator`) from `src/util.rs`, as a pure
step function.  In the `Head` state a figment is test-trimmed against the
remaining uncontested width; a local trim is only committed after the
forward sum of the remaining full widths exceeds the target width,
otherwise the figment is emitted verbatim and emission moves to the `Tail`
state.  The `unreachable!()` arm taken when `uncontested_width - offset`
underflows becomes `MFStep.panicked`. -/
def MultiFigments.next (mf : MultiFigments) : MFStep :=
  match mf.state with
  | .head figmentIter targetWidth uncontestedWidth =>
    match figmentIter.next with
    | none => .stop
    | some (figment, figmentIter) =>
      if mf.offset ≤ uncontestedWidth then
        let remUcWidth := uncontestedWidth - mf.offset
        let trimOutput := trimDisplayStr figment remUcWidth
        if trimOutput.trimStatus.isTrimmed then
          let figmentWidth := trimOutput.fullRealWidth
          if frontierExceeds targetWidth mf.offset
              (figmentWidth :: figmentIter.items.map widthOf) then
            .yield mf.offset trimOutput.displayStr
              { mf with offset := mf.offset + trimOutput.outputWidth
                        state := .ellipsisState trimOutput.trimStatus.padding }
          else
            .yield mf.offset figment
              { mf with offset := mf.offset + figmentWidth
                        state := .tail figmentIter }
        else
          .yield mf.offset figment
            { mf with offset := mf.offset + trimOutput.fullRealWidth
                      state := .head figmentIter targetWidth uncontestedWidth }
      else
        .panicked
  | .tail figmentIter =>
    match figmentIter.next with
    | none => .stop
    | some (figment, figmentIter) =>
      .yield mf.offset figment
        { mf with offset := mf.offset + widthOf figment
                  state := .tail figmentIter }
  | .ellipsisState padding =>
    if 0 < padding then
      .yield mf.offset (ascii " ")
        { mf with offset := mf.offset + 1
                  state := .ellipsisState (padding - 1) }
    else
      .yield mf.offset mf.ellipsis
        { mf with offset := mf.offset + mf.ellipsisWidth
                  state := .done }
  | .done => .stop

/-- Run the iterator for at most `fuel` steps, collecting the yielded
`(offset, figment)` pairs. -/
def MultiFigments.collect : Nat → MultiFigments → List (Nat × List UChar)
  | 0, _ => []
  | fuel + 1, mf =>
    match mf.next with
    | .yield off fig mf' => (off, fig) :: MultiFigments.collect fuel mf'
    | _ => []

/-- The values joined by the separator, as the sequence of fragments the
renderer would have to emit verbatim. -/
def interleave (separator : List UChar) : List (List UChar) → List (List UChar)
  | [] => []
  | [v] => [v]
  | v :: w :: rest => v :: separator :: interleave separator (w :: rest)

/-- Pair each fragment with the cumulative display width of the fragments
before it, starting from `off`. -/
def zipOffsets (off : Nat) : List (List UChar) → List (Nat × List UChar)
  | [] => []
  | f :: rest => (off, f) :: zipOffsets (off + widthOf f) rest

/-- Combined display width of a list of fragments. -/
def totalWidth (figs : List (List UChar)) : Nat :=
  (figs.map widthOf).sum

/-- The safety invariant of `MultiFigments`: in the `Head` state the
consumed offset never exceeds the uncontested width, so the source's
`uncontested_width.checked_sub(self.offset)` always succeeds. -/
def MFInv (mf : MultiFigments) : Prop :=
  ∀ ip tw uc, mf.state = .head ip tw uc → mf.offset ≤ uc

/-- States reachable from `start` by repeatedly stepping through yields of
`MultiFigments::next`. -/
inductive MFReachable (start : MultiFigments) : MultiFigments → Prop where
  | refl : MFReachable start start
  | step {mf : MultiFigments} {off : Nat} {fig : List UChar}
      {mf' : MultiFigments} :
      MFReachable start mf → mf.next = .yield off fig mf' → MFReachable start mf'

/-- `InfoKind` from `src/data.rs`. -/
inductive InfoKind where
  | fileName | filePath
deriving DecidableEq, Repr

/-- `ColumnKey` from `src/data.rs`. -/
inductive ColumnKey where
  | meta (key : String)
  | info (kind : InfoKind)
deriving DecidableEq, Repr

/-- `Sizing` from `src/data.rs`. -/
inductive Sizing where
  | auto
  | fixed (width : Nat)
  | lower (minWidth : Nat)
  | upper (maxWidth : Nat)
  | bound (minWidth maxWidth : Nat)
deriving DecidableEq, Repr

/-- `Column` from `src/data.rs`. -/
structure Column where
  key : ColumnKey
  title : String
  sizing : Sizing
deriving DecidableEq, Repr

/-- `Record` from `src/data.rs`.  The metadata `HashMap<String, String>` is
modelled as an association list with unique keys; the two `InfoKind`
attributes computed on demand from the record's file path
(`file_name().to_str()` and `to_str()`, both `Option<&str>`) are modelled
as the precomputed results of those path queries. -/
structure Record where
  metadata : List (String × String)
  fileName : Option String
  filePath : Option String
deriving DecidableEq, Repr

/-- `Record::get_meta`. -/
def Record.getMeta (r : Record) (metaKey : String) : Option String :=
  r.metadata.lookup metaKey

/-- `Record::get_info`. -/
def Record.getInfo (r : Record) : InfoKind → Option String
  | .fileName => r.fileName
  | .filePath => r.filePath

/-- `Record::get`. -/
def Record.get (r : Record) : ColumnKey → Option String
  | .meta metaKey => r.getMeta metaKey
  | .info infoKind => r.getInfo infoKind

/-- `Data` from `src/data.rs`. -/
structure Data where
  columns : List Column
  records : List Record
deriving DecidableEq, Repr

/-- Rust `char` comparison: code-point (`u32`) order. -/
def cmpChar (a b : Char) : Ordering :=
  if a.toNat < b.toNat then .lt else if b.toNat < a.toNat then .gt else .eq

/-- Rust `str::cmp`: lexicographic comparison of the code-point sequences
(UTF-8 byte order coincides with code-point order). -/
def cmpChars : List Char → List Char → Ordering
  | [], [] => .eq
  | [], _ :: _ => .lt
  | _ :: _, [] => .gt
  | a :: xs, b :: ys =>
    match cmpChar a b with
    | .eq => cmpChars xs ys
    | o => o

/-- Rust `String` comparison. -/
def strCmp (a b : String) : Ordering :=
  cmpChars a.data b.data

/-- The comparator body of `Data::sort_by_column_index` before the
direction flip: absent values precede present values, two present values
compare as strings. -/
def optStrCmp : Option String → Option String → Ordering
  | none, none => .eq
  | none, some _ => .lt
  | some _, none => .gt
  | some a, some b => strCmp a b

/-- The full comparator of `Data::sort_by_column_index`: the entire result,
including the absent/present branch, is reversed when descending
(Rust `Ordering::reverse` is `Ordering.swap`). -/
def recordCmp (key : ColumnKey) (isDescending : Bool) (ra rb : Record) :
    Ordering :=
  let o := optStrCmp (ra.get key) (rb.get key)
  if isDescending then o.swap else o

/-- The comparator as the "less or equal" test driving the stable merge
sort. -/
def recLE (key : ColumnKey) (isDescending : Bool) (ra rb : Record) : Bool :=
  match recordCmp key isDescending ra rb with
  | .gt => false
  | _ => true

/-- `Data::sort_by_column_index` from `src/data.rs`: an out-of-range column
index does nothing; otherwise the records are stably sorted by the
comparator (Rust `sort_by` is a stable merge sort, modelled by
`List.mergeSort`). -/
def Data.sortByColumnIndex (d : Data) (columnIndex : Nat)
    (isDescending : Bool) : Data :=
  match d.columns[columnIndex]? with
  | none => d
  | some column =>
    { d with records := d.records.mergeSort (recLE column.key isDescending) }

/-- The record with column `k` value `"b"` of the spec's sort example. -/
def recB : Record := ⟨[("k", "b")], none, none⟩

/-- The record with column `k` value `"a"` of the spec's sort example. -/
def recA : Record := ⟨[("k", "a")], none, none⟩

/-- The record with no value for column `k` of the spec's sort example. -/
def recNone : Record := ⟨[], none, none⟩

/-- The spec's sort example: one metadata column `k`, records with values
`["b", "a", absent]`. -/
def sortSample : Data :=
  ⟨[⟨.meta "k", "K", .auto⟩], [recB, recA, recNone]⟩

/-- Display width of a Rust `String`
(`unicode_width::UnicodeWidthStr::width`), parameterized by the
per-code-point width function of the `unicode-width` crate. -/
def strDisplayWidth (charWidth : Char → Nat) (s : String) : Nat :=
  (s.data.map charWidth).sum

/-- `Util::max_column_content_width` from `src/util.rs`: the running
maximum over the records' field widths, seeded with the column title's
width; a missing field counts 0. -/
def maxColumnContentWidth (charWidth : Char → Nat) (column : Column)
    (records : List Record) : Nat :=
  records.foldl
    (fun maxSeen record =>
      max maxSeen
        (((record.get column.key).map (strDisplayWidth charWidth)).getD 0))
    (strDisplayWidth charWidth column.title)

/-- Modelled from the spec: resolution of a `Sizing` policy against the
column content width `c` (§3) — the canonical `Model::recache` dispatch
over the five-variant `Sizing` of `data.rs` is absent from the sources (the
`model.rs` draft handles only `Auto`/`Fixed`): `Auto` gives `c`, `Fixed(w)`
gives `w`, `Lower(min)` floors at `min`, `Upper(max)` caps at `max`, and
`Bound(min,max)` clamps to `[min, max]`. -/
def resolveSizing (sizing : Sizing) (c : Nat) : Nat :=
  match sizing with
  | .auto => c
  | .fixed w => w
  | .lower minW => max c minW
  | .upper maxW => min c maxW
  | .bound minW maxW => min (max c minW) maxW

/-- The `Model` owning the data, the cursor, and the width cache, in the
canonical representation used by `views/tag_record.rs` (`model.data`,
`model.cursor`, `model.cached_content_widths`, plus the dirty flag of
`model.rs`). -/
structure Model where
  data : Data
  cursor : Cursor
  cachedContentWidths : List Nat
  dirty : Bool
deriving DecidableEq, Repr

/-- Modelled from the spec: the canonical `Model::recache` body over the
tagged-key columns is absent from the sources (`model.rs:227-251` is an
older draft calling a three-argument `max_column_content_width` that no
longer exists); following §4.3, a clean cache is left untouched, and on a
dirty cache each column's width is resolved per its `Sizing` policy
against `Util::max_column_content_width`, clearing the dirty flag. -/
def Model.recache (charWidth : Char → Nat) (m : Model) : Model :=
  if m.dirty then
    { m with
      dirty := false
      cachedContentWidths := m.data.columns.map
        (fun col => resolveSizing col.sizing
          (maxColumnContentWidth charWidth col m.data.records)) }
  else m

/-- `Model::sort_by_column` from `src/model.rs` (lines 311-314): delegates
to the data sort and touches neither the cache nor the dirty flag ("No
recaching should be needed with sorting"), keyed by column index as in the
call sites of `views/tag_record.rs`. -/
def Model.sortByColumnIndex (m : Model) (columnIndex : Nat)
    (isDescending : Bool) : Model :=
  { m with data := m.data.sortByColumnIndex columnIndex isDescending }

/-- The column content width in the claim's vocabulary:
`max(header title display width, max over all records of that column's
field display width)`. -/
def columnContentWidthSpec (charWidth : Char → Nat) (column : Column)
    (records : List Record) : Nat :=
  max (strDisplayWidth charWidth column.title)
    ((records.map
        (fun r => ((r.get column.key).map (strDisplayWidth charWidth)).getD 0)).foldr
      max 0)

/-- A dirty model over the sample data. -/
def modelSample : Model := ⟨sortSample, .cell 0 0, [], true⟩

/-- A clean model over the sample data. -/
def cleanModelSample : Model := ⟨sortSample, .cell 0 0, [1], false⟩

example :
    trimDisplayStrElided helloStr 0 1 =
      { displayStr := [], outputWidth := 0, fullRealWidth := 6,
        trimStatus := .trimmed 0 false } := by decide

example :
    trimDisplayStrElided helloStr 3 1 =
      { displayStr := [nch 'h', nch 'e'], outputWidth := 2, fullRealWidth := 6,
        trimStatus := .trimmed 0 true } := by decide

example :
    trimDisplayStrElided helloStr 5 1 =
      { displayStr := [nch 'h', nch 'e', nch 'l', nch 'l'], outputWidth := 4,
        fullRealWidth := 6, trimStatus := .trimmed 0 true } := by decide

example :
    trimDisplayStrElided helloStr 5 100 =
      { displayStr := [nch 'h', nch 'e', nch 'l', nch 'l', nch 'o'],
        outputWidth := 5, fullRealWidth := 6,
        trimStatus := .trimmed 0 false } := by decide

example :
    trimDisplayStrElided helloStr 6 100 =
      { displayStr := helloStr, outputWidth := 6, fullRealWidth := 6,
        trimStatus := .untrimmed } := by decide

example :
    trimDisplayStrElided nihonStr 1 1 =
      { displayStr := [], outputWidth := 0, fullRealWidth := 12,
        trimStatus := .trimmed 0 true } := by decide

example :
    trimDisplayStrElided nihonStr 2 1 =
      { displayStr := [], outputWidth := 0, fullRealWidth := 12,
        trimStatus := .trimmed 1 true } := by decide

example :
    trimDisplayStrElided nihonStr 3 1 =
      { displayStr := [wch '日'], outputWidth := 2, fullRealWidth := 12,
        trimStatus := .trimmed 0 true } := by decide

example :
    trimDisplayStrElided nihonStr 4 1 =
      { displayStr := [wch '日'], outputWidth := 2, fullRealWidth := 12,
        trimStatus := .trimmed 1 true } := by decide

example :
    trimDisplayStrElided nihonStr 4 2 =
      { displayStr := [wch '日'], outputWidth := 2, fullRealWidth := 12,
        trimStatus := .trimmed 0 true } := by decide

theorem widthOf_append (a b : List UChar) :
    widthOf (a ++ b) = widthOf a + widthOf b := by
  simp [widthOf]

theorem widthOf_take_add_drop (l : List UChar) (n : Nat) :
    widthOf (l.take n) + widthOf (l.drop n) = widthOf l := by
  conv_rhs => rw [← List.take_append_drop n l]
  rw [widthOf_append]

/-- The scanning loop of `Util::trim_display_str_elided` establishes
`TrimInv` from any state satisfying its invariants. -/
theorem trimLoop_invariant (orig : List UChar) (tw ew : Nat) (pe : Bool)
    (hew : ew ≤ tw) :
    ∀ (rest done : List UChar) (currWidth : Nat) (past : Bool)
      (eI oW pad : Nat),
    orig = done ++ rest →
    currWidth = widthOf done →
    currWidth ≤ tw →
    (past = false → currWidth ≤ ew) →
    (past = true → oW = widthOf (orig.take eI) ∧ oW ≤ ew ∧
        ∃ c ∈ orig, pad < c.width) →
    TrimInv orig tw (trimLoop orig tw ew pe rest done.length currWidth past eI oW pad) := by
  intro rest
  induction rest with
  | nil =>
    intro done currWidth past eI oW pad horig hcw hcwle _ _
    have hdone : done = orig := by simp [horig]
    subst hdone
    rw [trimLoop]
    refine ⟨by simp [hcw], by simpa [hcw.symm] using hcwle, by simp [hcw], ?_, ?_⟩
    · intro p b hp; simp at hp
    · intro _; rfl
  | cons ch rest ih =>
    intro done currWidth past eI oW pad horig hcw hcwle hfalse htrue
    rw [trimLoop]
    have hchmem : ch ∈ orig := by rw [horig]; simp
    have hdone : orig.take done.length = done := by
      rw [horig]; exact List.take_left done (ch :: rest)
    have hsplit : widthOf (orig.drop done.length) + currWidth = widthOf orig := by
      have h1 := widthOf_take_add_drop orig done.length
      rw [hdone] at h1
      omega
    by_cases helide : (!past && decide (ew < currWidth + ch.width)) = true
    · have hpast : past = false := by
        rcases past with _ | _
        · rfl
        · simp at helide
      have hragged : ew < currWidth + ch.width := by
        have h2 := helide
        simp only [hpast, Bool.not_false, Bool.true_and, decide_eq_true_eq] at h2
        exact h2
      have hcwew : currWidth ≤ ew := hfalse hpast
      rw [if_pos helide]
      by_cases hstop : tw < currWidth + ch.width
      · rw [if_pos hstop]
        refine ⟨by simp [hdone, hcw], by simp [hdone]; omega, by simpa using hsplit,
          ?_, ?_⟩
        · intro p b hp
          simp only [TrimStatus.trimmed.injEq] at hp
          exact ⟨ch, hchmem, by omega⟩
        · intro h; simp at h
      · rw [if_neg hstop]
        have horig' : orig = (done ++ [ch]) ++ rest := by simp [horig]
        have hcw' : currWidth + ch.width = widthOf (done ++ [ch]) := by
          rw [widthOf_append, hcw]; simp [widthOf]
        have hlen : done.length + 1 = (done ++ [ch]).length := by simp
        rw [hlen]
        refine ih (done ++ [ch]) _ true done.length currWidth (ew - currWidth)
          horig' hcw' (by omega) (by simp) ?_
        intro _
        exact ⟨by rw [hdone, hcw], hcwew, ch, hchmem, by omega⟩
    · rw [if_neg helide]
      by_cases hstop : tw < currWidth + ch.width
      · rw [if_pos hstop]
        have hpast : past = true := by
          rcases past with _ | _
          · exfalso
            apply helide
            have hcwew := hfalse rfl
            simp only [Bool.not_false, Bool.true_and, decide_eq_true_eq]
            omega
          · rfl
        obtain ⟨hoW, hoWle, c, hc, hpadc⟩ := htrue hpast
        have hsplitI := widthOf_take_add_drop orig eI
        refine ⟨by simp [hoW], by show widthOf (List.take eI orig) ≤ tw; omega,
          by simp; omega, ?_, ?_⟩
        · intro p b hp
          simp only [TrimStatus.trimmed.injEq] at hp
          exact ⟨c, hc, by omega⟩
        · intro h; simp at h
      · rw [if_neg hstop]
        have horig' : orig = (done ++ [ch]) ++ rest := by simp [horig]
        have hcw' : currWidth + ch.width = widthOf (done ++ [ch]) := by
          rw [widthOf_append, hcw]; simp [widthOf]
        have hlen : done.length + 1 = (done ++ [ch]).length := by simp
        rw [hlen]
        refine ih (done ++ [ch]) _ past eI oW pad horig' hcw' (by omega) ?_ htrue
        intro hpast
        rcases Nat.lt_or_ge ew (currWidth + ch.width) with h | h
        · exfalso; apply helide; simp [hpast, h]
        · omega

theorem trimDisplayStrElided_inv (s : List UChar) (w e : Nat) :
    TrimInv s w (trimDisplayStrElided s w e) := by
  simp only [trimDisplayStrElided]
  exact trimLoop_invariant s w _ _ (Nat.sub_le _ _) s [] 0 false 0 0 0 rfl rfl
    (Nat.zero_le _) (fun _ => Nat.zero_le _) (by simp)

/-- If the whole string fits in the target width, the scanning loop runs to
completion and reports `Untrimmed` with the accumulated width. -/
theorem trimLoop_of_fits (orig : List UChar) (tw ew : Nat) (pe : Bool)
    (hfits : widthOf orig ≤ tw) :
    ∀ (rest done : List UChar) (currWidth : Nat) (past : Bool)
      (eI oW pad : Nat),
    orig = done ++ rest →
    currWidth = widthOf done →
    trimLoop orig tw ew pe rest done.length currWidth past eI oW pad =
      { displayStr := orig, outputWidth := widthOf orig,
        fullRealWidth := widthOf orig, trimStatus := .untrimmed } := by
  intro rest
  induction rest with
  | nil =>
    intro done currWidth past eI oW pad horig hcw
    have hdone : done = orig := by simp [horig]
    subst hdone
    rw [trimLoop, hcw]
  | cons ch rest ih =>
    intro done currWidth past eI oW pad horig hcw
    have horig' : orig = (done ++ [ch]) ++ rest := by simp [horig]
    have hcw' : currWidth + ch.width = widthOf (done ++ [ch]) := by
      rw [widthOf_append, hcw]; simp [widthOf]
    have hle : currWidth + ch.width ≤ widthOf orig := by
      rw [horig', widthOf_append, ← hcw']
      omega
    have hstop : ¬ tw < currWidth + ch.width := by omega
    have hlen : done.length + 1 = (done ++ [ch]).length := by simp
    rw [trimLoop]
    by_cases helide : (!past && decide (ew < currWidth + ch.width)) = true
    · rw [if_pos helide, if_neg hstop, hlen]
      exact ih (done ++ [ch]) _ true done.length currWidth (ew - currWidth)
        horig' hcw'
    · rw [if_neg helide, if_neg hstop, hlen]
      exact ih (done ++ [ch]) _ past eI oW pad horig' hcw'

/-- If the whole string fits, `Util::trim_display_str_elided` returns it
unchanged with `Untrimmed` status. -/
theorem trimDisplayStrElided_of_fits (s : List UChar) (w e : Nat)
    (hfits : widthOf s ≤ w) :
    trimDisplayStrElided s w e =
      { displayStr := s, outputWidth := widthOf s, fullRealWidth := widthOf s,
        trimStatus := .untrimmed } := by
  simp only [trimDisplayStrElided]
  exact trimLoop_of_fits s w _ _ hfits s [] 0 false 0 0 0 rfl rfl

/-- A trim happens exactly when the string is strictly wider than the
target width. -/
theorem trimDisplayStrElided_untrimmed_iff (s : List UChar) (w e : Nat) :
    (trimDisplayStrElided s w e).trimStatus = .untrimmed ↔ widthOf s ≤ w := by
  constructor
  · intro h
    have hinv := trimDisplayStrElided_inv s w e
    have hds := hinv.2.2.2.2 h
    have hle := hinv.2.1
    rwa [hds] at hle
  · intro h
    rw [trimDisplayStrElided_of_fits s w e h]

/-- C1: for every string `s`, target width `w`, and ellipsis width `e`, the
display string returned by `Util::trim_display_str_elided(s, w, e)` has
display width at most `w`. -/
theorem trim_display_str_elided_width_bound (s : List UChar) (w e : Nat) :
    widthOf (trimDisplayStrElided s w e).displayStr ≤ w :=
  (trimDisplayStrElided_inv s w e).2.1

/-- C2: for every string `s` and ellipsis width `e`, if the target width `w`
is at least the display width of `s`, then `Util::trim_display_str_elided`
returns the original string unchanged with status `Untrimmed`, and its
`output_width` and `full_real_width` both equal the display width of `s`. -/
theorem trim_display_str_elided_roundtrip (s : List UChar) (w e : Nat)
    (hfits : widthOf s ≤ w) :
    trimDisplayStrElided s w e =
      { displayStr := s, outputWidth := widthOf s, fullRealWidth := widthOf s,
        trimStatus := .untrimmed } :=
  trimDisplayStrElided_of_fits s w e hfits

/-- Witness for C2 at the source's own test vector `"hello!"` with
`w = 6 ≥ 6 = display_width(s)`. -/
theorem trim_display_str_elided_roundtrip_witness :
    trimDisplayStrElided helloStr 6 1 =
      { displayStr := helloStr, outputWidth := 6, fullRealWidth := 6,
        trimStatus := .untrimmed } :=
  (trim_display_str_elided_roundtrip helloStr 6 1 (by decide)).trans (by decide)

/-- C7: whenever `Util::trim_display_str_elided` trims a string whose
characters have the widths the `unicode-width` crate can produce (at most
2 cells each), the returned padding is 0 or 1, never more; and on the
source's test vector, `fit("日本人の氏名", 2, 1)` returns display `""`,
padding 1, and a `Trimmed` status with `emit_ellipsis` true. -/
theorem trim_display_str_elided_padding_le_one :
    (∀ (s : List UChar) (w e : Nat), (∀ c ∈ s, c.width ≤ 2) →
      ∀ p b, (trimDisplayStrElided s w e).trimStatus = .trimmed p b → p ≤ 1) ∧
    trimDisplayStrElided nihonStr 2 1 =
      { displayStr := [], outputWidth := 0, fullRealWidth := 12,
        trimStatus := .trimmed 1 true } := by
  constructor
  · intro s w e hw p b hp
    obtain ⟨c, hc, hpc⟩ := (trimDisplayStrElided_inv s w e).2.2.2.1 p b hp
    have := hw c hc
    omega
  · decide

/-- Witness for C7: the general bound applied to the concrete wide-character
test vector. -/
theorem trim_display_str_elided_padding_le_one_witness : (1 : Nat) ≤ 1 :=
  trim_display_str_elided_padding_le_one.1 nihonStr 2 1 (by decide) 1 true
    (by decide)

/-- C8: for every string `s`, target width `w`, and ellipsis width `e`, the
`full_real_width` field of the result of `Util::trim_display_str_elided`
equals the display width of the entire original string, trimmed or not. -/
theorem trim_display_str_elided_full_real_width (s : List UChar) (w e : Nat) :
    (trimDisplayStrElided s w e).fullRealWidth = widthOf s :=
  (trimDisplayStrElided_inv s w e).2.2.1

theorem clampCoordSpec_eq (bound v : Nat) :
    clampCoordSpec bound v = min (bound - 1) v := by
  simp only [clampCoordSpec, Nat.min_def]
  split_ifs <;> omega

theorem clamp_eq_clampSpec (c : Cursor) (boundX boundY : Nat) :
    c.clamp boundX boundY = c.clampSpec boundX boundY := by
  cases c <;> simp [Cursor.clamp, Cursor.clampSpec, clampCoordSpec_eq]

/-- C4: for every starting cursor, bounds, and shift amount `n ≥ 1`,
`Cursor::shift` follows the claim's transition table and then clamps both
coordinates to `[0, bound-1]` (to 0 when the bound is 0); with `n = 0` it
only clamps. -/
theorem cursor_shift_follows_table :
    (∀ (c : Cursor) (dir : CursorDir) (n boundX boundY : Nat), 1 ≤ n →
      c.shift dir n boundX boundY =
        (c.shiftTableSpec dir n).clampSpec boundX boundY) ∧
    (∀ (c : Cursor) (dir : CursorDir) (boundX boundY : Nat),
      c.shift dir 0 boundX boundY = c.clampSpec boundX boundY) := by
  constructor
  · intro c dir n boundX boundY hn
    have hpos : 0 < n := hn
    cases dir <;> cases c <;>
      simp only [Cursor.shift, if_pos hpos, Cursor.shiftTableSpec,
        clamp_eq_clampSpec]
  · intro c dir boundX boundY
    cases dir <;> cases c <;>
      simp only [Cursor.shift, Nat.lt_irrefl, if_false, clamp_eq_clampSpec]

/-- Witness for C4: the spec's own test vector, `Cell(0,0)` shifted up by 1
within bounds `5 × 5` leaves the grid into the header row at `Column(0)`. -/
theorem cursor_shift_follows_table_witness :
    (Cursor.cell 0 0).shift .u 1 5 5 =
      ((Cursor.cell 0 0).shiftTableSpec .u 1).clampSpec 5 5 :=
  cursor_shift_follows_table.1 (Cursor.cell 0 0) .u 1 5 5 (by decide)

example : (Cursor.cell 0 0).shift .u 1 5 5 = Cursor.column 0 := by decide

example : (Cursor.column 2).shift .d 1 5 5 = Cursor.cell 2 0 := by decide

example :
    (Interpolator.new [ascii "HELLO", ascii "WORLD"] (ascii "////")).items =
      [ascii "HELLO", ascii "////", ascii "WORLD"] := by decide

example :
    (Interpolator.mk [ascii "HELLO", ascii "WORLD"] (ascii "////") 1 true).items =
      [ascii "////", ascii "WORLD"] := by decide

example :
    (Interpolator.mk [ascii "HELLO", ascii "WORLD"] (ascii "////") 2 true).items =
      [] := by decide

example :
    MultiFigments.collect 16
      (MultiFigments.new
        [ascii "WOW", ascii "COOL", ascii "RAD", ascii "NEAT", ascii "AYY"]
        21 (ascii "|") [nch '⋯']) =
      [(0, ascii "WOW"), (3, ascii "|"), (4, ascii "COOL"), (8, ascii "|"),
        (9, ascii "RAD"), (12, ascii "|"), (13, ascii "NEAT"), (17, ascii "|"),
        (18, ascii "AYY")] := by decide

example :
    MultiFigments.collect 16
      (MultiFigments.new
        [ascii "WOW", ascii "COOL", ascii "RAD", ascii "NEAT", ascii "AYY"]
        20 (ascii "|") [nch '⋯']) =
      [(0, ascii "WOW"), (3, ascii "|"), (4, ascii "COOL"), (8, ascii "|"),
        (9, ascii "RAD"), (12, ascii "|"), (13, ascii "NEAT"), (17, ascii "|"),
        (18, ascii "A"), (19, [nch '⋯'])] := by decide

example :
    MultiFigments.collect 16
      (MultiFigments.new [ascii "0123456789", ascii "0123456789"]
        20 (ascii "|") (ascii "...")) =
      [(0, ascii "0123456789"), (10, ascii "|"), (11, ascii "012345"),
        (17, ascii "...")] := by decide

example :
    MultiFigments.collect 16
      (MultiFigments.new [ascii "0123456789", ascii "0123456789"]
        14 (ascii "|") (ascii "...")) =
      [(0, ascii "0123456789"), (10, ascii "|"), (11, []),
        (11, ascii "...")] := by decide

example :
    MultiFigments.collect 16
      (MultiFigments.new [ascii "0123456789"] 10 (ascii "|") (ascii "...")) =
      [(0, ascii "0123456789")] := by decide

example :
    MultiFigments.collect 16
      (MultiFigments.new [[]] 10 (ascii "|") (ascii "...")) =
      [(0, [])] := by decide

example :
    MultiFigments.collect 16
      (MultiFigments.new [] 10 (ascii "|") (ascii "...")) = [] := by decide

theorem items_next_none (ip : Interpolator) (h : ip.next = none) :
    ip.items = [] := by
  cases hv : ip.values[ip.index]? with
  | none =>
    have hnil : ip.values.drop ip.index = [] :=
      List.drop_eq_nil_iff.mpr (List.getElem?_eq_none_iff.mp hv)
    unfold Interpolator.items
    rw [hnil]
    cases ip.emitSep <;> rfl
  | some v =>
    by_cases hes : ip.emitSep = true <;> simp [Interpolator.next, hes, hv] at h

theorem items_next_some (ip : Interpolator) (f : List UChar)
    (ip' : Interpolator) (h : ip.next = some (f, ip')) :
    ip.items = f :: ip'.items := by
  cases hv : ip.values[ip.index]? with
  | none =>
    by_cases hes : ip.emitSep = true <;> simp [Interpolator.next, hes, hv] at h
  | some v =>
    have hlt : ip.index < ip.values.length := by
      obtain ⟨hl, -⟩ := List.getElem?_eq_some_iff.mp hv
      exact hl
    have hdrop : ip.values.drop ip.index =
        ip.values[ip.index] :: ip.values.drop (ip.index + 1) :=
      List.drop_eq_getElem_cons hlt
    by_cases hes : ip.emitSep = true
    · simp only [Interpolator.next, hes, if_true, hv] at h
      obtain ⟨hf, hip⟩ := Prod.mk.injEq .. ▸ Option.some.injEq .. ▸ h
      subst hf hip
      unfold Interpolator.items
      simp only [hes, hdrop, itemsGo]
    · simp only [Interpolator.next, hes, if_false, hv, Bool.false_eq_true] at h
      obtain ⟨hf, hip⟩ := Prod.mk.injEq .. ▸ Option.some.injEq .. ▸ h
      subst hf hip
      unfold Interpolator.items
      simp only [Bool.not_eq_true] at hes
      simp only [hes, hdrop, itemsGo]
      have hgv : ip.values[ip.index] = v := by
        rw [List.getElem?_eq_getElem hlt] at hv
        exact Option.some.inj hv
      rw [hgv]

theorem items_new (values : List (List UChar)) (sep : List UChar) :
    (Interpolator.new values sep).items = interleave sep values := by
  show itemsGo sep (values.drop 0) false = interleave sep values
  rw [List.drop_zero]
  induction values with
  | nil => rfl
  | cons v rest ih =>
    cases rest with
    | nil => rfl
    | cons w t =>
      show v :: itemsGo sep (w :: t) true = _
      show v :: sep :: w :: itemsGo sep t true = v :: sep :: interleave sep (w :: t)
      rw [show itemsGo sep (w :: t) false = w :: itemsGo sep t true from rfl] at ih
      rw [ih]

theorem frontierExceeds_eq_false (tw : Nat) :
    ∀ (ws : List Nat) (off : Nat), off + ws.sum ≤ tw →
    frontierExceeds tw off ws = false := by
  intro ws
  induction ws with
  | nil => intro off _; rfl
  | cons w rest ih =>
    intro off hsum
    rw [List.sum_cons] at hsum
    have hno : ¬ tw < off + w := by omega
    rw [frontierExceeds, if_neg hno]
    exact ih (off + w) (by omega)

theorem totalWidth_cons (f : List UChar) (rest : List (List UChar)) :
    totalWidth (f :: rest) = widthOf f + totalWidth rest := by
  simp [totalWidth]

/-- In the `Tail` state every remaining figment is emitted verbatim at the
cumulative offset. -/
theorem collect_tail (ell : List UChar) (ew : Nat) :
    ∀ (fuel : Nat) (ip : Interpolator) (off : Nat),
    ip.items.length ≤ fuel →
    MultiFigments.collect fuel ⟨off, ell, ew, .tail ip⟩ = zipOffsets off ip.items := by
  intro fuel
  induction fuel with
  | zero =>
    intro ip off hfuel
    have : ip.items = [] := List.length_eq_zero.mp (Nat.le_zero.mp hfuel)
    rw [this]
    rfl
  | succ fuel ih =>
    intro ip off hfuel
    rw [MultiFigments.collect]
    cases hn : ip.next with
    | none =>
      rw [items_next_none ip hn]
      simp [MultiFigments.next, hn, zipOffsets]
    | some p =>
      obtain ⟨f, ip'⟩ := p
      rw [items_next_some ip f ip' hn]
      have hlen : ip'.items.length ≤ fuel := by
        have := hfuel
        rw [items_next_some ip f ip' hn] at this
        simpa using this
      simp only [MultiFigments.next, hn]
      rw [zipOffsets]
      exact congrArg _ (ih ip' (off + widthOf f) hlen)

/-- In the `Head` state, as long as the consumed offset stays within the
uncontested width and everything still to come fits in the target width,
every remaining figment is emitted verbatim at the cumulative offset. -/
theorem collect_head (ell : List UChar) (ew tw uc : Nat) :
    ∀ (fuel : Nat) (ip : Interpolator) (off : Nat),
    ip.items.length ≤ fuel →
    off ≤ uc →
    off + totalWidth ip.items ≤ tw →
    MultiFigments.collect fuel ⟨off, ell, ew, .head ip tw uc⟩ =
      zipOffsets off ip.items := by
  intro fuel
  induction fuel with
  | zero =>
    intro ip off hfuel _ _
    have : ip.items = [] := List.length_eq_zero.mp (Nat.le_zero.mp hfuel)
    rw [this]
    rfl
  | succ fuel ih =>
    intro ip off hfuel huc hfits
    rw [MultiFigments.collect]
    cases hn : ip.next with
    | none =>
      rw [items_next_none ip hn]
      simp [MultiFigments.next, hn, zipOffsets]
    | some p =>
      obtain ⟨f, ip'⟩ := p
      have hitems : ip.items = f :: ip'.items := items_next_some ip f ip' hn
      have hlen : ip'.items.length ≤ fuel := by
        have := hfuel
        rw [hitems] at this
        simpa using this
      have hfull : (trimDisplayStr f (uc - off)).fullRealWidth = widthOf f :=
        (trimDisplayStrElided_inv f (uc - off) 0).2.2.1
      have hfits' : off + (widthOf f + totalWidth ip'.items) ≤ tw := by
        rw [hitems, totalWidth_cons] at hfits
        omega
      by_cases hT : (trimDisplayStr f (uc - off)).trimStatus.isTrimmed = true
      · -- locally trimmed, but the forward sum shows everything fits
        have hfront : frontierExceeds tw off
            ((trimDisplayStr f (uc - off)).fullRealWidth ::
              ip'.items.map widthOf) = false := by
          apply frontierExceeds_eq_false
          rw [List.sum_cons, hfull]
          have : (ip'.items.map widthOf).sum = totalWidth ip'.items := rfl
          omega
        simp only [MultiFigments.next, hn, if_pos huc, hT, if_true, hfront,
          Bool.false_eq_true, if_false]
        rw [hitems, zipOffsets, hfull]
        exact congrArg _ (collect_tail ell ew fuel ip' (off + widthOf f) hlen)
      · -- the figment fits in the remaining uncontested width
        have huntrimmed : (trimDisplayStr f (uc - off)).trimStatus = .untrimmed := by
          cases hst : (trimDisplayStr f (uc - off)).trimStatus with
          | untrimmed => rfl
          | trimmed p b =>
            have hcontra : (trimDisplayStr f (uc - off)).trimStatus.isTrimmed = true := by
              rw [hst]
              rfl
            exact absurd hcontra hT
        have hwf : widthOf f ≤ uc - off :=
          (trimDisplayStrElided_untrimmed_iff f (uc - off) 0).mp huntrimmed
        simp only [MultiFigments.next, hn, if_pos huc, hT, Bool.false_eq_true,
          if_false]
        rw [hitems, zipOffsets, hfull]
        refine congrArg _ (ih ip' (off + widthOf f) hlen (by omega) ?_)
        rw [hitems, totalWidth_cons] at hfits
        omega

/-- C3: whenever the combined display width of the values interleaved with
the separator fits in the target width, `MultiFigments` emits every value
and every separator verbatim, each at an offset equal to the cumulative
display width of the fragments emitted before it, and never emits an
ellipsis fragment: the whole emission sequence is exactly the interleaved
fragments paired with their cumulative offsets. -/
theorem multi_figments_emits_all_when_fits (values : List (List UChar))
    (targetWidth : Nat) (separator ellipsis : List UChar)
    (hfits : totalWidth (interleave separator values) ≤ targetWidth) :
    ∀ fuel, (interleave separator values).length ≤ fuel →
    MultiFigments.collect fuel
        (MultiFigments.new values targetWidth separator ellipsis) =
      zipOffsets 0 (interleave separator values) := by
  intro fuel hfuel
  show MultiFigments.collect fuel
      ⟨0, ellipsis, _, .head (Interpolator.new values separator) targetWidth _⟩ = _
  rw [← items_new values separator] at hfuel hfits ⊢
  exact collect_head ellipsis _ targetWidth _ fuel (Interpolator.new values separator)
    0 hfuel (Nat.zero_le _) (by omega)

/-- Witness for C3: the source's own all-fits test vector (width 21). -/
theorem multi_figments_emits_all_when_fits_witness :
    MultiFigments.collect 9
      (MultiFigments.new
        [ascii "WOW", ascii "COOL", ascii "RAD", ascii "NEAT", ascii "AYY"]
        21 (ascii "|") [nch '⋯']) =
      zipOffsets 0 (interleave (ascii "|")
        [ascii "WOW", ascii "COOL", ascii "RAD", ascii "NEAT", ascii "AYY"]) :=
  multi_figments_emits_all_when_fits _ 21 _ _ (by decide) 9 (by decide)

theorem MFInv_new (values : List (List UChar)) (tw : Nat)
    (sep ell : List UChar) : MFInv (MultiFigments.new values tw sep ell) :=
  fun _ _ uc _ => Nat.zero_le uc

theorem MFInv_step (mf : MultiFigments) (off : Nat) (fig : List UChar)
    (mf' : MultiFigments) (h : mf.next = .yield off fig mf') (hinv : MFInv mf) :
    MFInv mf' := by
  obtain ⟨offv, ellv, ewv, st⟩ := mf
  cases st with
  | head ip tw uc =>
    cases hn : ip.next with
    | none => simp [MultiFigments.next, hn] at h
    | some p =>
      obtain ⟨f, ip₂⟩ := p
      have huc : offv ≤ uc := hinv ip tw uc rfl
      simp only [MultiFigments.next, hn, if_pos huc] at h
      by_cases hT : (trimDisplayStr f (uc - offv)).trimStatus.isTrimmed = true
      · rw [if_pos hT] at h
        by_cases hfr : frontierExceeds tw offv
            ((trimDisplayStr f (uc - offv)).fullRealWidth ::
              ip₂.items.map widthOf) = true
        · rw [if_pos hfr] at h
          injection h with h1 h2 h3
          subst h3
          intro ip' tw' uc' hstate
          simp at hstate
        · rw [if_neg hfr] at h
          injection h with h1 h2 h3
          subst h3
          intro ip' tw' uc' hstate
          simp at hstate
      · rw [if_neg hT] at h
        injection h with h1 h2 h3
        subst h3
        intro ip' tw' uc' hstate
        simp only [MFState.head.injEq] at hstate
        obtain ⟨-, -, huc'⟩ := hstate
        subst huc'
        have huntrimmed : (trimDisplayStr f (uc - offv)).trimStatus = .untrimmed := by
          cases hst2 : (trimDisplayStr f (uc - offv)).trimStatus with
          | untrimmed => rfl
          | trimmed p b =>
            have hcontra : (trimDisplayStr f (uc - offv)).trimStatus.isTrimmed = true := by
              rw [hst2]
              rfl
            exact absurd hcontra hT
        have hwf : widthOf f ≤ uc - offv :=
          (trimDisplayStrElided_untrimmed_iff f (uc - offv) 0).mp huntrimmed
        have hfull : (trimDisplayStr f (uc - offv)).fullRealWidth = widthOf f :=
          (trimDisplayStrElided_inv f (uc - offv) 0).2.2.1
        show offv + (trimDisplayStr f (uc - offv)).fullRealWidth ≤ uc
        rw [hfull]
        omega
  | tail ip =>
    cases hn : ip.next with
    | none => simp [MultiFigments.next, hn] at h
    | some p =>
      obtain ⟨f, ip₂⟩ := p
      simp only [MultiFigments.next, hn] at h
      injection h with h1 h2 h3
      subst h3
      intro ip' tw' uc' hstate
      simp at hstate
  | ellipsisState p =>
    by_cases hp : 0 < p
    · simp only [MultiFigments.next, if_pos hp] at h
      injection h with h1 h2 h3
      subst h3
      intro ip' tw' uc' hstate
      simp at hstate
    · simp only [MultiFigments.next, if_neg hp] at h
      injection h with h1 h2 h3
      subst h3
      intro ip' tw' uc' hstate
      simp at hstate
  | done => simp [MultiFigments.next] at h

theorem next_ne_panicked_of_inv (mf : MultiFigments) (hinv : MFInv mf) :
    mf.next ≠ .panicked := by
  obtain ⟨offv, ellv, ewv, st⟩ := mf
  cases st with
  | head ip tw uc =>
    cases hn : ip.next with
    | none => simp [MultiFigments.next, hn]
    | some p =>
      obtain ⟨f, ip₂⟩ := p
      have huc : offv ≤ uc := hinv ip tw uc rfl
      simp only [MultiFigments.next, hn, if_pos huc]
      by_cases hT : (trimDisplayStr f (uc - offv)).trimStatus.isTrimmed = true
      · rw [if_pos hT]
        by_cases hfr : frontierExceeds tw offv
            ((trimDisplayStr f (uc - offv)).fullRealWidth ::
              ip₂.items.map widthOf) = true
        · rw [if_pos hfr]; simp
        · rw [if_neg hfr]; simp
      · rw [if_neg hT]; simp
  | tail ip =>
    cases hn : ip.next with
    | none => simp [MultiFigments.next, hn]
    | some p =>
      obtain ⟨f, ip₂⟩ := p
      simp [MultiFigments.next, hn]
  | ellipsisState p =>
    by_cases hp : 0 < p <;> simp [MultiFigments.next, hp]
  | done => simp [MultiFigments.next]

theorem MFInv_of_reachable (values : List (List UChar)) (tw : Nat)
    (sep ell : List UChar) (mf : MultiFigments)
    (h : MFReachable (MultiFigments.new values tw sep ell) mf) : MFInv mf := by
  induction h with
  | refl => exact MFInv_new values tw sep ell
  | step _ hn ih => exact MFInv_step _ _ _ _ hn ih

/-- C10: in every state of `MultiFigments` reachable from `new`, whenever
the state is `Head` the consumed offset is at most the uncontested width,
so the checked subtraction `uncontested_width - offset` succeeds and the
`unreachable!()` branch of `MultiFigments::next` is never executed. -/
theorem multi_figments_never_panics (values : List (List UChar))
    (targetWidth : Nat) (separator ellipsis : List UChar)
    (mf : MultiFigments)
    (h : MFReachable (MultiFigments.new values targetWidth separator ellipsis) mf) :
    (∀ ip tw uc, mf.state = .head ip tw uc → mf.offset ≤ uc) ∧
    mf.next ≠ .panicked :=
  have hinv := MFInv_of_reachable values targetWidth separator ellipsis mf h
  ⟨hinv, next_ne_panicked_of_inv mf hinv⟩

/-- Witness for C10 at the freshly constructed iterator of the source's
test vector. -/
theorem multi_figments_never_panics_witness :
    (MultiFigments.new [ascii "WOW", ascii "COOL"] 5 (ascii "|")
        [nch '⋯']).next ≠ .panicked :=
  (multi_figments_never_panics [ascii "WOW", ascii "COOL"] 5 (ascii "|")
    [nch '⋯'] _ MFReachable.refl).2

theorem cmpChar_swap (a b : Char) : cmpChar a b = (cmpChar b a).swap := by
  unfold cmpChar
  split_ifs <;> first | rfl | omega

theorem cmpChar_eq_iff (a b : Char) : cmpChar a b = .eq ↔ a = b := by
  constructor
  · intro h
    unfold cmpChar at h
    split_ifs at h with h1 h2
    have hv : a.val.toNat = b.val.toNat := by
      simp only [Char.toNat] at h1 h2
      omega
    exact Char.ext (UInt32.toNat.inj hv)
  · rintro rfl
    unfold cmpChar
    simp

theorem cmpChar_lt_trans {a b c : Char} (h1 : cmpChar a b = .lt)
    (h2 : cmpChar b c = .lt) : cmpChar a c = .lt := by
  have ha : a.toNat < b.toNat := by
    unfold cmpChar at h1; split_ifs at h1 <;> simp_all
  have hb : b.toNat < c.toNat := by
    unfold cmpChar at h2; split_ifs at h2 <;> simp_all
  unfold cmpChar
  rw [if_pos (by omega)]

theorem cmpChars_swap (xs : List Char) :
    ∀ ys, cmpChars xs ys = (cmpChars ys xs).swap := by
  induction xs with
  | nil => intro ys; cases ys <;> rfl
  | cons a xs ih =>
    intro ys
    cases ys with
    | nil => rfl
    | cons b ys =>
      show (match cmpChar a b with
            | .eq => cmpChars xs ys
            | o => o) =
        (match cmpChar b a with
         | .eq => cmpChars ys xs
         | o => o).swap
      rw [cmpChar_swap b a]
      cases h : cmpChar a b <;> simp [Ordering.swap, ih ys]

theorem cmpChars_eq_iff (xs : List Char) :
    ∀ ys, cmpChars xs ys = .eq ↔ xs = ys := by
  induction xs with
  | nil => intro ys; cases ys <;> simp [cmpChars]
  | cons a xs ih =>
    intro ys
    cases ys with
    | nil => simp [cmpChars]
    | cons b ys =>
      show (match cmpChar a b with
            | .eq => cmpChars xs ys
            | o => o) = .eq ↔ _
      cases h : cmpChar a b with
      | eq =>
        have hab : a = b := (cmpChar_eq_iff a b).mp h
        simp [hab, ih ys]
      | lt =>
        have hab : a ≠ b := by
          intro he
          rw [he] at h
          rw [(cmpChar_eq_iff b b).mpr rfl] at h
          exact absurd h (by simp)
        simp [hab]
      | gt =>
        have hab : a ≠ b := by
          intro he
          rw [he] at h
          rw [(cmpChar_eq_iff b b).mpr rfl] at h
          exact absurd h (by simp)
        simp [hab]

theorem cmpChars_lt_trans (xs : List Char) :
    ∀ ys zs, cmpChars xs ys = .lt → cmpChars ys zs = .lt →
    cmpChars xs zs = .lt := by
  induction xs with
  | nil =>
    intro ys zs h1 h2
    cases ys with
    | nil => exact h2
    | cons b ys =>
      cases zs with
      | nil => simp [cmpChars] at h2
      | cons c zs => rfl
  | cons a xs ih =>
    intro ys zs h1 h2
    cases ys with
    | nil => simp [cmpChars] at h1
    | cons b ys =>
      cases zs with
      | nil => simp [cmpChars] at h2
      | cons c zs =>
        rw [cmpChars] at h1
        rw [cmpChars] at h2
        rw [cmpChars]
        cases hab : cmpChar a b with
        | gt => simp [hab] at h1
        | lt =>
          cases hbc : cmpChar b c with
          | gt => simp [hbc] at h2
          | eq =>
            obtain rfl : b = c := (cmpChar_eq_iff b c).mp hbc
            simp [hab]
          | lt => simp [cmpChar_lt_trans hab hbc]
        | eq =>
          obtain rfl : a = b := (cmpChar_eq_iff a b).mp hab
          simp only [hab] at h1
          cases hbc : cmpChar a c with
          | gt => simp [hbc] at h2
          | eq =>
            obtain rfl : a = c := (cmpChar_eq_iff a c).mp hbc
            simp only [hbc] at h2
            simp only [hbc]
            exact ih ys zs h1 h2
          | lt => simp [hbc]

theorem strCmp_swap (a b : String) : strCmp a b = (strCmp b a).swap :=
  cmpChars_swap a.data b.data

theorem strCmp_eq_iff (a b : String) : strCmp a b = .eq ↔ a = b := by
  unfold strCmp
  rw [cmpChars_eq_iff]
  exact ⟨String.ext, congrArg String.data⟩

theorem strCmp_lt_trans {a b c : String} (h1 : strCmp a b = .lt)
    (h2 : strCmp b c = .lt) : strCmp a c = .lt :=
  cmpChars_lt_trans a.data b.data c.data h1 h2

theorem optStrCmp_swap (x y : Option String) :
    optStrCmp x y = (optStrCmp y x).swap := by
  cases x with
  | none => cases y <;> rfl
  | some a =>
    cases y with
    | none => rfl
    | some b => exact strCmp_swap a b

theorem optStrCmp_eq_iff (x y : Option String) :
    optStrCmp x y = .eq ↔ x = y := by
  cases x <;> cases y <;> simp [optStrCmp, strCmp_eq_iff]

theorem optStrCmp_lt_trans {x y z : Option String}
    (h1 : optStrCmp x y = .lt) (h2 : optStrCmp y z = .lt) :
    optStrCmp x z = .lt := by
  cases x <;> cases y <;> cases z <;>
    simp_all [optStrCmp]
  exact strCmp_lt_trans h1 h2

theorem optStrCmp_gt_trans {x y z : Option String}
    (h1 : optStrCmp x y = .gt) (h2 : optStrCmp y z = .gt) :
    optStrCmp x z = .gt := by
  have h1' : optStrCmp y x = .lt := by
    have := optStrCmp_swap x y
    rw [h1] at this
    cases hyx : optStrCmp y x <;> rw [hyx] at this <;> simp [Ordering.swap] at this ⊢
  have h2' : optStrCmp z y = .lt := by
    have := optStrCmp_swap y z
    rw [h2] at this
    cases hzy : optStrCmp z y <;> rw [hzy] at this <;> simp [Ordering.swap] at this ⊢
  have h3 := optStrCmp_lt_trans h2' h1'
  have := optStrCmp_swap x z
  rw [h3] at this
  simpa [Ordering.swap] using this

theorem recLE_false_iff (key : ColumnKey) (ra rb : Record) :
    recLE key false ra rb = true ↔
    optStrCmp (ra.get key) (rb.get key) ≠ .gt := by
  cases h : optStrCmp (ra.get key) (rb.get key) <;>
    simp [recLE, recordCmp, h]

theorem recLE_true_iff (key : ColumnKey) (ra rb : Record) :
    recLE key true ra rb = true ↔
    optStrCmp (ra.get key) (rb.get key) ≠ .lt := by
  cases h : optStrCmp (ra.get key) (rb.get key) <;>
    simp [recLE, recordCmp, h, Ordering.swap]

theorem recLE_trans (key : ColumnKey) (desc : Bool) (a b c : Record)
    (h1 : recLE key desc a b = true) (h2 : recLE key desc b c = true) :
    recLE key desc a c = true := by
  cases desc
  · rw [recLE_false_iff] at h1 h2 ⊢
    cases o1 : optStrCmp (a.get key) (b.get key) with
    | gt => exact absurd o1 h1
    | eq =>
      have hab := (optStrCmp_eq_iff _ _).mp o1
      rw [hab]
      exact h2
    | lt =>
      cases o2 : optStrCmp (b.get key) (c.get key) with
      | gt => exact absurd o2 h2
      | eq =>
        have hbc := (optStrCmp_eq_iff _ _).mp o2
        rw [← hbc, o1]
        simp
      | lt =>
        rw [optStrCmp_lt_trans o1 o2]
        simp
  · rw [recLE_true_iff] at h1 h2 ⊢
    cases o1 : optStrCmp (a.get key) (b.get key) with
    | lt => exact absurd o1 h1
    | eq =>
      have hab := (optStrCmp_eq_iff _ _).mp o1
      rw [hab]
      exact h2
    | gt =>
      cases o2 : optStrCmp (b.get key) (c.get key) with
      | lt => exact absurd o2 h2
      | eq =>
        have hbc := (optStrCmp_eq_iff _ _).mp o2
        rw [← hbc, o1]
        simp
      | gt =>
        rw [optStrCmp_gt_trans o1 o2]
        simp

theorem recLE_total (key : ColumnKey) (desc : Bool) (a b : Record) :
    recLE key desc a b || recLE key desc b a := by
  cases desc
  · rw [Bool.or_eq_true, recLE_false_iff, recLE_false_iff]
    cases o : optStrCmp (a.get key) (b.get key) with
    | gt =>
      right
      have := optStrCmp_swap (b.get key) (a.get key)
      rw [o] at this
      simp [this, Ordering.swap]
    | eq => left; simp [o]
    | lt => left; simp [o]
  · rw [Bool.or_eq_true, recLE_true_iff, recLE_true_iff]
    cases o : optStrCmp (a.get key) (b.get key) with
    | lt =>
      right
      have := optStrCmp_swap (b.get key) (a.get key)
      rw [o] at this
      simp [this, Ordering.swap]
    | eq => left; simp [o]
    | gt => left; simp [o]

/-- C5: `sort_by_column_index(index, descending)` stably sorts the records
by the value at the column with that index, using the comparator in which
an absent value precedes a present one, present values compare
lexicographically, and the entire result is reversed when descending: the
sorted records are a permutation of the originals, pairwise ordered by the
comparator, and any comparator-sorted subsequence of the input survives as
a subsequence of the output (stability).  In particular the spec's example
`["b", "a", absent]` sorts ascending to `[absent, "a", "b"]` and descending
to `["b", "a", absent]`. -/
theorem sort_by_column_index_spec :
    (∀ (d : Data) (i : Nat) (desc : Bool) (col : Column),
      d.columns[i]? = some col →
      (d.sortByColumnIndex i desc).columns = d.columns ∧
      (d.sortByColumnIndex i desc).records.Perm d.records ∧
      (d.sortByColumnIndex i desc).records.Pairwise
        (fun ra rb => recLE col.key desc ra rb = true) ∧
      (∀ c : List Record,
        c.Pairwise (fun ra rb => recLE col.key desc ra rb = true) →
        c.Sublist d.records →
        c.Sublist (d.sortByColumnIndex i desc).records)) ∧
    (sortSample.sortByColumnIndex 0 false).records = [recNone, recA, recB] ∧
    (sortSample.sortByColumnIndex 0 true).records = [recB, recA, recNone] := by
  refine ⟨?_, ?_, ?_⟩
  · intro d i desc col hcol
    simp only [Data.sortByColumnIndex, hcol]
    refine ⟨trivial, List.mergeSort_perm _ _, ?_, ?_⟩
    · exact List.sorted_mergeSort (recLE_trans col.key desc)
        (recLE_total col.key desc) d.records
    · intro c hc hsub
      exact List.sublist_mergeSort (recLE_trans col.key desc)
        (recLE_total col.key desc) hc hsub
  · have h1 : recLE (ColumnKey.meta "k") false recB recA = false := by decide
    have h2 : recLE (ColumnKey.meta "k") false recA recNone = false := by decide
    simp [Data.sortByColumnIndex, sortSample, List.mergeSort, List.merge, h1, h2]
  · have h1 : recLE (ColumnKey.meta "k") true recB recA = true := by decide
    have h2 : recLE (ColumnKey.meta "k") true recB recNone = true := by decide
    have h3 : recLE (ColumnKey.meta "k") true recA recNone = true := by decide
    simp [Data.sortByColumnIndex, sortSample, List.mergeSort, List.merge, h1, h2, h3]

/-- Witness for C5: the general part applied to the spec's concrete
example. -/
theorem sort_by_column_index_spec_witness :
    (sortSample.sortByColumnIndex 0 false).records.Perm sortSample.records :=
  (sort_by_column_index_spec.1 sortSample 0 false ⟨.meta "k", "K", .auto⟩
    (by decide)).2.1

theorem foldl_max_eq (l : List Nat) :
    ∀ a : Nat, l.foldl max a = max a (l.foldr max 0) := by
  induction l with
  | nil => intro a; simp
  | cons x xs ih =>
    intro a
    rw [List.foldl_cons, List.foldr_cons, ih (max a x), Nat.max_assoc]

theorem maxColumnContentWidth_eq_spec (charWidth : Char → Nat)
    (column : Column) (records : List Record) :
    maxColumnContentWidth charWidth column records =
      columnContentWidthSpec charWidth column records := by
  unfold maxColumnContentWidth columnContentWidthSpec
  rw [← List.foldl_map, foldl_max_eq]

/-- C6: after `recache()` runs on a dirty cache, the cached width of every
column equals its sizing policy applied to the column's content width
`c = max(header title display width, max over all records of that column's
field display width)`: `Auto` gives `c`, `Fixed(w)` gives `w`,
`Lower(min)` gives `max(c, min)`, `Upper(max)` gives `min(c, max)`, and
`Bound(min, max)` gives `c` clamped to `[min, max]`. -/
theorem recache_applies_sizing_policy (charWidth : Char → Nat) (m : Model)
    (hdirty : m.dirty = true) (i : Nat) (col : Column)
    (hcol : m.data.columns[i]? = some col) :
    (m.recache charWidth).cachedContentWidths[i]? =
      some (resolveSizing col.sizing
        (columnContentWidthSpec charWidth col m.data.records)) := by
  simp only [Model.recache, hdirty, if_true]
  rw [List.getElem?_map, hcol]
  simp [maxColumnContentWidth_eq_spec]

/-- Witness for C6 at the sample model with the constant-1 width
function. -/
theorem recache_applies_sizing_policy_witness :
    (modelSample.recache (fun _ => 1)).cachedContentWidths[0]? =
      some (resolveSizing Sizing.auto
        (columnContentWidthSpec (fun _ => 1) ⟨.meta "k", "K", .auto⟩
          modelSample.data.records)) :=
  recache_applies_sizing_policy (fun _ => 1) modelSample rfl 0
    ⟨.meta "k", "K", .auto⟩ (by decide)

/-- C9: sorting the records through the model wrapper does not invalidate
the width cache: the cached per-column widths and the dirty flag are
exactly as they were before the sort, and a subsequent `recache()` on a
clean cache performs no recomputation (it returns the model unchanged). -/
theorem model_sort_preserves_cache (charWidth : Char → Nat) (m : Model)
    (i : Nat) (desc : Bool) :
    (m.sortByColumnIndex i desc).cachedContentWidths = m.cachedContentWidths ∧
    (m.sortByColumnIndex i desc).dirty = m.dirty ∧
    (m.dirty = false → m.recache charWidth = m) := by
  refine ⟨rfl, rfl, ?_⟩
  intro h
  simp [Model.recache, h]

/-- Witness for C9 at a clean model: `recache` is a no-op there. -/
theorem model_sort_preserves_cache_witness :
    cleanModelSample.recache (fun _ => 1) = cleanModelSample :=
  (model_sort_preserves_cache (fun _ => 1) cleanModelSample 0 false).2.2 rfl

end Diargos
